import Mathlib

/-!
Shallow embedding of the URL-shortener core (Base62 codec, read-through
repository, lookup service) together with proofs of its specified
properties.

Sources embedded:
- internal/shortener/base62.go  (Encode, Decode, alphabet)
- internal/shortener/repository.go  (PostgresRedisRepository.Get)
- service.go  (Service.Redirect, ErrInvalidShortCode)

Machine integers: Go's uint64 arithmetic is modelled as Nat with an
explicit reduction modulo 2^64 exactly where the Go code can overflow
(the accumulator of Decode). Fallible Go functions returning
(T, error) are modelled as Except.
-/

deriving instance DecidableEq for Except

namespace Shortener

/-- Modulus of Go's uint64 arithmetic. -/
def uint64Size : Nat := 2 ^ 64

/-! ## Base62 codec (internal/shortener/base62.go) -/

/-- Embeds the constant `alphabet` of base62.go: the 62 symbols, digits
first, then lowercase, then uppercase. -/
def alphabet : String := "0123456789abcdefghijklmnopqrstuvwxyzABCDEFGHIJKLMNOPQRSTUVWXYZ"

/-- Embeds `base = uint64(len(alphabet))`; the alphabet is ASCII so the
byte length equals the symbol count, 62. -/
def base : Nat := alphabet.length

/-- Indexing into the alphabet, `alphabet[n]` in Go; callers always pass
`id % base`, which is in range, so the default is never returned. -/
def alphaChar (n : Nat) : Char := alphabet.toList.getD n '0'

/-- The digit-producing loop of `Encode`: emits base-62 digits least
significant first by repeated division, exactly as the Go loop
`for id > 0 { remainder := id % base; ...; id = id / base }`. The first
argument is fuel making the recursion structural (the same device Lean
core uses for `Nat.toDigitsCore`); `encodeAux_eq` below shows any fuel
of at least `n` iterations yields the same digits, so the fuel is an
artifact of totality, not of the modelled loop. -/
def encodeAux : Nat → Nat → List Char
  | 0, _ => []
  | _ + 1, 0 => []
  | fuel + 1, n + 1 => alphaChar ((n + 1) % base) :: encodeAux fuel ((n + 1) / base)

/-- The digits of `n`, least significant first, as produced by the
`Encode` loop (with provably sufficient fuel). -/
def encodeDigits (n : Nat) : List Char := encodeAux n n

/-- Embeds `Encode` of base62.go: zero maps to the first alphabet symbol;
otherwise the digits collected least-significant-first are reversed (the
Go code reverses the built byte slice; all symbols are one-byte ASCII, so
byte reversal is character reversal). -/
def Encode (id : Nat) : String :=
  if id = 0 then String.mk [alphaChar 0]
  else String.mk (encodeDigits id).reverse

/-- Linear scan returning the index of the first occurrence of `c`, or
`none`: Go's `strings.IndexRune(alphabet, char)` with -1 rendered as
`none` (the alphabet is ASCII, so Go's byte index equals the character
index). -/
def indexFrom (c : Char) : List Char → Nat → Option Nat
  | [], _ => none
  | a :: rest, k => if a = c then some k else indexFrom c rest (k + 1)

/-- The index of `c` in the alphabet, `strings.IndexRune(alphabet, c)`. -/
def indexInAlphabet (c : Char) : Option Nat := indexFrom c alphabet.toList 0

/-- The error value of `Decode`: Go's
`fmt.Errorf("invalid character '%c' at position %d in base62 string", char, i)`,
carrying the offending character and its byte position. -/
inductive DecodeError where
  | invalidChar (c : Char) (pos : Nat)
deriving DecidableEq, Repr

/-- Renders a `DecodeError` the way base62.go formats it. -/
def decodeErrorMessage : DecodeError → String
  | .invalidChar c pos =>
    "invalid character '" ++ String.singleton c ++ "' at position " ++
      toString pos ++ " in base62 string"

/-- The loop of `Decode`, one step per character. `pos` is the byte
offset Go's `for i, char := range encoded` reports (it advances by the
UTF-8 size of each character); the accumulator update
`id = id*base + uint64(index)` wraps modulo 2^64. -/
def decodeLoop : List Char → Nat → Nat → Except DecodeError Nat
  | [], _, id => .ok id
  | c :: rest, pos, id =>
    match indexInAlphabet c with
    | none => .error (.invalidChar c pos)
    | some index => decodeLoop rest (pos + c.utf8Size) ((id * base + index) % uint64Size)

/-- Embeds `Decode` of base62.go. An empty input runs the loop zero
times and succeeds with the initial accumulator 0. -/
def Decode (encoded : String) : Except DecodeError Nat :=
  decodeLoop encoded.toList 0 0

/-! Mathematical value of a digit string, used to state the overflow
claim: the exact (unwrapped) base-62 value. -/

/-- Value of a single symbol, 0 for a symbol outside the alphabet
(only applied to alphabet symbols in the theorems). -/
def digitValue (c : Char) : Nat := (indexInAlphabet c).getD 0

/-- Exact base-62 fold without wrapping, from accumulator `a`. -/
def valFold (l : List Char) (a : Nat) : Nat :=
  l.foldl (fun acc c => acc * base + digitValue c) a

/-- The wrapped fold actually computed by the decode loop. -/
def modFold (l : List Char) (a : Nat) : Nat :=
  l.foldl (fun acc c => (acc * base + digitValue c) % uint64Size) a

/-- Exact (unwrapped) base-62 value of a string. -/
def base62Val (s : String) : Nat := valFold s.toList 0

example : Encode 12345 = "3d7" := by decide
example : Encode 0 = "0" := by decide
example : Decode "3d7" = .ok 12345 := by decide
example : Decode "" = .ok 0 := by decide
example : Decode "invalid_char!" = .error (.invalidChar '_' 7) := by decide

/-! ## Error taxonomy

Go uses sentinel `error` values compared by identity:
`ErrNotFound` (repository.go), `ErrInvalidShortCode` (service.go), and
wrapped store errors built with `fmt.Errorf`. All flow through the same
`error` type, modelled as one inductive so that pass-through is literal
and the sentinels are distinguishable by constructor. -/

inductive AppError where
  | invalidShortCode
  | notFound
  | storeError (msg : String)
deriving DecidableEq, Repr

/-- Sentinel `ErrNotFound = errors.New("url not found")` of repository.go. -/
def ErrNotFound : AppError := .notFound

/-- Sentinel `ErrInvalidShortCode = errors.New("invalid short code")` of
service.go. -/
def ErrInvalidShortCode : AppError := .invalidShortCode

/-! ## Read-through repository (internal/shortener/repository.go)

`PostgresRedisRepository.Get` talks to two external capabilities, Redis
and Postgres. Each external call is modelled by its outcome, passed in
as a parameter (the oracle style); the calls `Get` actually issues and
the log lines it writes are returned as explicit effects. A stateful
wrapper below derives the outcomes from a repository state and applies
the effects, for the claims about cache population and query counts. -/

/-- Outcome of `r.redis.Get(ctx, cacheKey).Result()`: a value, the
`redis.Nil` key-absent error, or any other error. -/
inductive CacheReadResult where
  | hit (val : String)
  | redisNil
  | failure (msg : String)
deriving DecidableEq, Repr

/-- Outcome of the `SELECT original_url FROM urls WHERE id = $1` row
scan: a row, `sql.ErrNoRows`, or any other error. -/
inductive DbReadResult where
  | row (url : String)
  | noRows
  | failure (msg : String)
deriving DecidableEq, Repr

/-- Externally visible effects of one `Get` call: whether the store was
queried, the `redis.Set` call issued (key, value, TTL in nanoseconds),
and the log lines written. -/
structure GetEffects where
  storeQueried : Bool
  cacheWrite : Option (String × String × Nat)
  logs : List String
deriving DecidableEq, Repr

/-- Go's `24 * time.Hour` as a `time.Duration` (nanoseconds). -/
def ttl24h : Nat := 24 * 60 * 60 * 1000000000

/-- Embeds `cacheKey := fmt.Sprintf("shorturl:id:%d", id)`. -/
def cacheKey (id : Nat) : String := "shorturl:id:" ++ toString id

/-- Steps 2 and 3 of `Get`: the database query and the best-effort cache
update. `logs` carries any log line already written by step 1. -/
def getFromDb (redisConfigured : Bool) (dbRead : DbReadResult)
    (cacheSetErr : Option String) (id : Nat) (logs : List String) :
    Except AppError String × GetEffects :=
  match dbRead with
  | .noRows => (.error ErrNotFound, ⟨true, none, logs⟩)
  | .failure m =>
    (.error (.storeError ("failed to get url for id " ++ toString id ++ ": " ++ m)),
      ⟨true, none, logs⟩)
  | .row originalURL =>
    if redisConfigured then
      let logs2 :=
        match cacheSetErr with
        | some e => logs ++ ["redis set failed for key=" ++ cacheKey id ++ ": " ++ e]
        | none => logs
      (.ok originalURL, ⟨true, some (cacheKey id, originalURL, ttl24h), logs2⟩)
    else
      (.ok originalURL, ⟨true, none, logs⟩)

/-- Embeds `PostgresRedisRepository.Get`. `redisConfigured` models
`r.redis != nil`; `cacheRead` the Redis read outcome; `dbRead` the
database read outcome; `cacheSetErr` the outcome of the cache write
(`none` = success). A cache hit returns at once with no store query; a
`redis.Nil` miss falls through silently; any other cache read error is
logged and falls through; a cache write error is logged and ignored. -/
def Get (redisConfigured : Bool) (cacheRead : CacheReadResult)
    (dbRead : DbReadResult) (cacheSetErr : Option String) (id : Nat) :
    Except AppError String × GetEffects :=
  match redisConfigured, cacheRead with
  | true, .hit v => (.ok v, ⟨false, none, []⟩)
  | true, .redisNil => getFromDb true dbRead cacheSetErr id []
  | true, .failure m =>
    getFromDb true dbRead cacheSetErr id
      ["redis get failed for key=" ++ cacheKey id ++ ": " ++ m]
  | false, _ => getFromDb false dbRead cacheSetErr id []

/-! ## Stateful run of the repository

The nominal world: Redis configured and healthy, so read outcomes are
determined by the cache contents and store contents, and effects are
applied to the state. The cache is newest-entry-first; the store maps
ids to URLs; `storeQueries` counts database round trips. -/

structure RepoState where
  cache : List (String × String × Nat)
  store : List (Nat × String)
  storeQueries : Nat
deriving DecidableEq, Repr

/-- Cache lookup: value and TTL of the most recent entry for `key`. -/
def lookupCache : List (String × String × Nat) → String → Option (String × Nat)
  | [], _ => none
  | (k, v, t) :: rest, key => if k = key then some (v, t) else lookupCache rest key

/-- Store lookup by id. -/
def lookupStore : List (Nat × String) → Nat → Option String
  | [], _ => none
  | (i, u) :: rest, id => if i = id then some u else lookupStore rest id

/-- Redis read outcome determined by the cache contents. -/
def cacheReadOf (s : RepoState) (key : String) : CacheReadResult :=
  match lookupCache s.cache key with
  | some (v, _) => .hit v
  | none => .redisNil

/-- Database read outcome determined by the store contents. -/
def dbReadOf (s : RepoState) (id : Nat) : DbReadResult :=
  match lookupStore s.store id with
  | some u => .row u
  | none => .noRows

/-- Applies the effects of a `Get` call to the state: counts the store
query and installs the written cache entry. -/
def applyEffects (s : RepoState) (e : GetEffects) : RepoState :=
  let s1 := if e.storeQueried then { s with storeQueries := s.storeQueries + 1 } else s
  match e.cacheWrite with
  | some (k, v, t) => { s1 with cache := (k, v, t) :: s1.cache }
  | none => s1

/-- One `Get` call run against a repository state (healthy cache and
store, Redis configured). -/
def GetRun (s : RepoState) (id : Nat) : Except AppError String × RepoState :=
  let r := Get true (cacheReadOf s (cacheKey id)) (dbReadOf s id) none id
  (r.1, applyEffects s r.2)

/-! ## Lookup service (service.go) -/

/-- Embeds `Service.Redirect`: decode first; a decode failure is replaced
by `ErrInvalidShortCode` with no repository access; otherwise the result
of `repo.Get(ctx, id)` is passed through unchanged (the Go code returns
`err` and `originalURL` as received). -/
def Redirect (s : RepoState) (shortCode : String) :
    Except AppError String × RepoState :=
  match Decode shortCode with
  | .error _ => (.error ErrInvalidShortCode, s)
  | .ok id =>
    match GetRun s id with
    | (.error e, s2) => (.error e, s2)
    | (.ok originalURL, s2) => (.ok originalURL, s2)

/-! ## Codec lemmas -/

theorem base_eq : base = 62 := rfl

theorem uint64Size_pos : 0 < uint64Size := by norm_num [uint64Size]

theorem encodeAux_congr (n : Nat) :
    ∀ f₁ f₂, n ≤ f₁ → n ≤ f₂ → encodeAux f₁ n = encodeAux f₂ n := by
  induction n using Nat.strong_induction_on with
  | _ n ih =>
    intro f₁ f₂ h₁ h₂
    rcases n with _ | m
    · have e : ∀ f, encodeAux f 0 = ([] : List Char) := by
        intro f; cases f <;> rfl
      rw [e, e]
    · rcases f₁ with _ | a
      · omega
      rcases f₂ with _ | b
      · omega
      have hd : (m + 1) / base < m + 1 := Nat.div_lt_self (Nat.succ_pos m) (by decide)
      simp only [encodeAux]
      exact congrArg _ (ih _ hd a b (by omega) (by omega))

theorem encodeDigits_zero : encodeDigits 0 = [] := rfl

theorem encodeDigits_succ (n : Nat) (h : n ≠ 0) :
    encodeDigits n = alphaChar (n % base) :: encodeDigits (n / base) := by
  rcases n with _ | m
  · exact absurd rfl h
  have hd : (m + 1) / base < m + 1 := Nat.div_lt_self (Nat.succ_pos m) (by decide)
  show encodeAux (m + 1) (m + 1) = _
  simp only [encodeAux]
  exact congrArg _ (encodeAux_congr _ _ _ (by omega) le_rfl)

theorem indexInAlphabet_alphaChar : ∀ d < 62, indexInAlphabet (alphaChar d) = some d := by
  decide

theorem digitValue_alphaChar (d : Nat) (h : d < 62) : digitValue (alphaChar d) = d := by
  rw [digitValue, indexInAlphabet_alphaChar d h, Option.getD_some]

theorem encodeDigits_valid (n : Nat) :
    ∀ c ∈ encodeDigits n, (indexInAlphabet c).isSome := by
  induction n using Nat.strong_induction_on with
  | _ n ih =>
    intro c hc
    rcases Nat.eq_zero_or_pos n with h0 | h0
    · rw [h0, encodeDigits_zero] at hc
      exact absurd hc (List.not_mem_nil c)
    rw [encodeDigits_succ n (Nat.pos_iff_ne_zero.mp h0)] at hc
    rcases List.mem_cons.mp hc with h | h
    · subst h
      rw [Option.isSome_iff_exists]
      exact ⟨_, indexInAlphabet_alphaChar _ (base_eq ▸ Nat.mod_lt n (by decide))⟩
    · exact ih (n / base) (Nat.div_lt_self h0 (by decide)) c h

theorem decodeLoop_ok (l : List Char) :
    ∀ pos a, (∀ c ∈ l, (indexInAlphabet c).isSome) →
      decodeLoop l pos a = .ok (modFold l a) := by
  induction l with
  | nil => intro pos a _; rfl
  | cons c rest ih =>
    intro pos a h
    obtain ⟨ix, hix⟩ :=
      Option.isSome_iff_exists.mp (h c (List.mem_cons_self c rest))
    have hmf : modFold (c :: rest) a = modFold rest ((a * base + ix) % uint64Size) := by
      simp [modFold, List.foldl_cons, digitValue, hix]
    rw [hmf]
    simp only [decodeLoop, hix]
    exact ih _ _ (fun d hd => h d (List.mem_cons_of_mem c hd))

theorem valFold_shift (l : List Char) :
    ∀ a, valFold l a = a * base ^ l.length + valFold l 0 := by
  induction l with
  | nil => intro a; simp [valFold]
  | cons c rest ih =>
    intro a
    have h1 : valFold (c :: rest) a = valFold rest (a * base + digitValue c) := rfl
    have h2 : valFold (c :: rest) 0 = valFold rest (digitValue c) := by
      simp [valFold, List.foldl_cons]
    rw [h1, ih (a * base + digitValue c), h2, ih (digitValue c)]
    simp only [List.length_cons, pow_succ]
    ring

theorem modFold_eq (l : List Char) :
    ∀ a, a < uint64Size → modFold l a = valFold l a % uint64Size := by
  induction l with
  | nil =>
    intro a ha
    simp [modFold, valFold, Nat.mod_eq_of_lt ha]
  | cons c rest ih =>
    intro a _
    have h1 : modFold (c :: rest) a =
        modFold rest ((a * base + digitValue c) % uint64Size) := rfl
    have h2 : valFold (c :: rest) a = valFold rest (a * base + digitValue c) := rfl
    rw [h1, h2, ih _ (Nat.mod_lt _ uint64Size_pos),
      valFold_shift rest ((a * base + digitValue c) % uint64Size),
      valFold_shift rest (a * base + digitValue c)]
    exact ((Nat.mod_modEq (a * base + digitValue c) uint64Size).mul_right
      (base ^ rest.length)).add_right (valFold rest 0)

theorem valFold_encodeDigits (n : Nat) :
    ∀ a, valFold (encodeDigits n).reverse a =
      a * base ^ (encodeDigits n).length + n := by
  induction n using Nat.strong_induction_on with
  | _ n ih =>
    intro a
    rcases Nat.eq_zero_or_pos n with h0 | h0
    · subst h0; simp [encodeDigits_zero, valFold]
    have hne : n ≠ 0 := Nat.pos_iff_ne_zero.mp h0
    have hd : n / base < n := Nat.div_lt_self h0 (by decide)
    rw [encodeDigits_succ n hne]
    have happ : valFold ((encodeDigits (n / base)).reverse ++ [alphaChar (n % base)]) a =
        valFold (encodeDigits (n / base)).reverse a * base +
          digitValue (alphaChar (n % base)) := by
      simp [valFold, List.foldl_append, List.foldl_cons]
    simp only [List.reverse_cons, happ, ih (n / base) hd a,
      digitValue_alphaChar (n % base) (base_eq ▸ Nat.mod_lt n (by decide)),
      List.length_cons]
    calc (a * base ^ (encodeDigits (n / base)).length + n / base) * base + n % base
        = a * (base ^ (encodeDigits (n / base)).length * base) +
            (base * (n / base) + n % base) := by ring
      _ = a * base ^ ((encodeDigits (n / base)).length + 1) + n := by
          rw [Nat.div_add_mod, pow_succ]

theorem encodeDigits_length_le (n : Nat) :
    ∀ k, n < base ^ k → (encodeDigits n).length ≤ k := by
  induction n using Nat.strong_induction_on with
  | _ n ih =>
    intro k hk
    rcases Nat.eq_zero_or_pos n with h0 | h0
    · subst h0; simp [encodeDigits_zero]
    have hne : n ≠ 0 := Nat.pos_iff_ne_zero.mp h0
    rcases k with _ | j
    · simp only [pow_zero] at hk; omega
    have hd : n / base < n := Nat.div_lt_self h0 (by decide)
    have hdj : n / base < base ^ j := by
      rw [Nat.div_lt_iff_lt_mul (by decide : 0 < base)]
      calc n < base ^ (j + 1) := hk
        _ = base ^ j * base := pow_succ base j
    rw [encodeDigits_succ n hne]
    simpa [List.length_cons] using ih (n / base) hd j hdj

theorem decodeLoop_invalid (l : List Char) :
    ∀ pos a, (∃ c ∈ l, indexInAlphabet c = none) →
      ∃ c p, decodeLoop l pos a = .error (.invalidChar c p) ∧
        indexInAlphabet c = none := by
  induction l with
  | nil => intro pos a h; simp at h
  | cons c rest ih =>
    intro pos a h
    cases hidx : indexInAlphabet c with
    | none => exact ⟨c, pos, by simp [decodeLoop, hidx], hidx⟩
    | some ix =>
      obtain ⟨d, hd, hdnone⟩ := h
      rcases List.mem_cons.mp hd with rfl | hmem
      · rw [hidx] at hdnone
        exact absurd hdnone (Option.some_ne_none ix)
      · have hrec := ih (pos + c.utf8Size) ((a * base + ix) % uint64Size)
          ⟨d, hmem, hdnone⟩
        simpa [decodeLoop, hidx] using hrec

theorem decode_encode (id : Nat) (h : id < uint64Size) :
    Decode (Encode id) = .ok id := by
  by_cases h0 : id = 0
  · subst h0; decide
  have hshow : Decode (Encode id) = decodeLoop (encodeDigits id).reverse 0 0 := by
    rw [Encode, if_neg h0]
    rfl
  rw [hshow,
    decodeLoop_ok _ 0 0 (fun c hc => encodeDigits_valid id c (List.mem_reverse.mp hc)),
    modFold_eq _ 0 uint64Size_pos, valFold_encodeDigits id 0]
  simp [Nat.mod_eq_of_lt h]

/-! ## Repository and service lemmas -/

theorem GetRun_hit (s : RepoState) (id : Nat) (v : String) (t : Nat)
    (h : lookupCache s.cache (cacheKey id) = some (v, t)) :
    GetRun s id = (.ok v, s) := by
  have hc : cacheReadOf s (cacheKey id) = .hit v := by
    rw [cacheReadOf, h]
  simp [GetRun, hc, Get, applyEffects]

theorem GetRun_miss_found (s : RepoState) (id : Nat) (url : String)
    (h1 : lookupCache s.cache (cacheKey id) = none)
    (h2 : lookupStore s.store id = some url) :
    GetRun s id =
      (.ok url,
        ⟨(cacheKey id, url, ttl24h) :: s.cache, s.store, s.storeQueries + 1⟩) := by
  have hc : cacheReadOf s (cacheKey id) = .redisNil := by
    rw [cacheReadOf, h1]
  have hd : dbReadOf s id = .row url := by
    rw [dbReadOf, h2]
  simp [GetRun, hc, hd, Get, getFromDb, applyEffects]

theorem GetRun_miss_absent (s : RepoState) (id : Nat)
    (h1 : lookupCache s.cache (cacheKey id) = none)
    (h2 : lookupStore s.store id = none) :
    GetRun s id =
      (.error ErrNotFound, ⟨s.cache, s.store, s.storeQueries + 1⟩) := by
  have hc : cacheReadOf s (cacheKey id) = .redisNil := by
    rw [cacheReadOf, h1]
  have hd : dbReadOf s id = .noRows := by
    rw [dbReadOf, h2]
  simp [GetRun, hc, hd, Get, getFromDb, applyEffects]

theorem Redirect_of_decode_ok (s : RepoState) (sc : String) (id : Nat)
    (h : Decode sc = .ok id) : Redirect s sc = GetRun s id := by
  simp only [Redirect, h]
  rcases GetRun s id with ⟨r, s2⟩
  cases r <;> rfl

/-! ## Claim theorems -/

/-- C1: for every id in [0, 2^64 - 1], Decode (Encode id) returns id with
no error, and Encode is injective over the full unsigned 64-bit range (so
it is a bijection onto its image of minimal-length Base62 strings). -/
theorem base62_roundtrip (id : Nat) (h : id < 2 ^ 64) :
    Decode (Encode id) = .ok id ∧
      ∀ j, j < 2 ^ 64 → Encode j = Encode id → j = id := by
  refine ⟨decode_encode id h, fun j hj he => ?_⟩
  have h1 := decode_encode j hj
  rw [he, decode_encode id h] at h1
  exact (Except.ok.inj h1).symm

/-- Witness for C1 at id = 3. -/
theorem base62_roundtrip_witness :
    (3 : Nat) < 2 ^ 64 ∧ Decode (Encode 3) = .ok 3 :=
  ⟨by norm_num, (base62_roundtrip 3 (by norm_num)).1⟩

/-- C2 counterexample: the claim says Decode "" returns an error and
Redirect "" fails as InvalidShortCode with no store access. In the code
the decode loop runs zero times on an empty input, so Decode "" succeeds
with id 0, and Redirect "" on an empty repository reaches the durable
store (one query) and fails with NotFound, not InvalidShortCode. -/
theorem decode_empty_counterexample :
    Decode "" = .ok 0 ∧
      Redirect ⟨[], [], 0⟩ "" = (.error ErrNotFound, ⟨[], [], 1⟩) := by
  constructor
  · decide
  · decide

/-- C2 amended: Decode "" succeeds with id 0 (the loop body never runs),
so Redirect "" is not rejected as invalid: it delegates to the
repository's Get for id 0, touching cache and store like any decodable
code. -/
theorem decode_empty_accepted (s : RepoState) :
    Decode "" = Except.ok 0 ∧ Redirect s "" = GetRun s 0 :=
  ⟨by decide, Redirect_of_decode_ok s "" 0 (by decide)⟩

/-- C3: on a cache hit, Get returns the cached value, issues no store
query, and leaves the entire repository state (store contents and query
count included) unchanged. -/
theorem cache_hit_short_circuits (s : RepoState) (id : Nat) (v : String) (t : Nat)
    (h : lookupCache s.cache (cacheKey id) = some (v, t)) :
    GetRun s id = (.ok v, s) ∧
      (Get true (cacheReadOf s (cacheKey id)) (dbReadOf s id) none id).2.storeQueried
        = false := by
  refine ⟨GetRun_hit s id v t h, ?_⟩
  have hc : cacheReadOf s (cacheKey id) = .hit v := by
    rw [cacheReadOf, h]
  rw [hc]
  rfl

/-- Witness for C3: a one-entry cache holding id 7. -/
theorem cache_hit_short_circuits_witness :
    lookupCache (RepoState.mk [("shorturl:id:7", "http://a", 0)] [] 0).cache
        (cacheKey 7) = some ("http://a", 0) ∧
      GetRun (RepoState.mk [("shorturl:id:7", "http://a", 0)] [] 0) 7 =
        (.ok "http://a", RepoState.mk [("shorturl:id:7", "http://a", 0)] [] 0) :=
  ⟨by decide,
    (cache_hit_short_circuits (RepoState.mk [("shorturl:id:7", "http://a", 0)] [] 0)
      7 "http://a" 0 (by decide)).1⟩

/-- C4: a cache read failure other than key-absent produces the same
result as a plain miss (fall through to the store), and a failing cache
write after a successful store read still yields the store value; no
cache failure is ever surfaced by Get. -/
theorem cache_failure_never_surfaces (m : String) (db : DbReadResult)
    (se : Option String) (id : Nat) (url e : String) :
    (Get true (.failure m) db se id).1 = (Get true .redisNil db se id).1 ∧
      (Get true .redisNil (.row url) (some e) id).1 = .ok url ∧
      (Get true (.failure m) (.row url) (some e) id).1 = .ok url := by
  refine ⟨?_, rfl, rfl⟩
  cases db <;> rfl

/-- C5: on a cache miss with the id present in the store, Get queries the
store exactly once, returns the stored value, installs it in the cache
under the id's key with the 24-hour TTL, and a repeated Get is then a
pure cache hit that changes nothing (no further store query). -/
theorem cache_miss_populates (s : RepoState) (id : Nat) (url : String)
    (h1 : lookupCache s.cache (cacheKey id) = none)
    (h2 : lookupStore s.store id = some url) :
    (GetRun s id).1 = .ok url ∧
      (GetRun s id).2.storeQueries = s.storeQueries + 1 ∧
      lookupCache (GetRun s id).2.cache (cacheKey id) = some (url, ttl24h) ∧
      GetRun (GetRun s id).2 id = (.ok url, (GetRun s id).2) := by
  have hrun := GetRun_miss_found s id url h1 h2
  refine ⟨by rw [hrun], by rw [hrun], ?_, ?_⟩
  · rw [hrun]
    simp [lookupCache]
  · rw [hrun]
    exact GetRun_hit _ id url ttl24h (by simp [lookupCache])

/-- Witness for C5: an empty cache and a store holding id 5. -/
theorem cache_miss_populates_witness :
    lookupCache (RepoState.mk [] [(5, "http://x")] 0).cache (cacheKey 5) = none ∧
      lookupStore (RepoState.mk [] [(5, "http://x")] 0).store 5 = some "http://x" ∧
      ((GetRun (RepoState.mk [] [(5, "http://x")] 0) 5).1 = .ok "http://x" ∧
        (GetRun (RepoState.mk [] [(5, "http://x")] 0) 5).2.storeQueries = 0 + 1 ∧
        lookupCache (GetRun (RepoState.mk [] [(5, "http://x")] 0) 5).2.cache
          (cacheKey 5) = some ("http://x", ttl24h) ∧
        GetRun (GetRun (RepoState.mk [] [(5, "http://x")] 0) 5).2 5 =
          (.ok "http://x", (GetRun (RepoState.mk [] [(5, "http://x")] 0) 5).2)) :=
  ⟨by decide, by decide,
    cache_miss_populates (RepoState.mk [] [(5, "http://x")] 0) 5 "http://x"
      (by decide) (by decide)⟩

/-- C6: Redirect decodes first; a decode failure yields the
InvalidShortCode sentinel with the repository state untouched (no cache
or store access), and a decode success yields exactly the repository
Get result, value or failure passed through unchanged. -/
theorem redirect_decodes_first (s : RepoState) (sc : String) (e : DecodeError)
    (id : Nat) :
    (Decode sc = .error e → Redirect s sc = (.error ErrInvalidShortCode, s)) ∧
      (Decode sc = .ok id → Redirect s sc = GetRun s id) := by
  constructor
  · intro h
    simp only [Redirect, h]
  · intro h
    exact Redirect_of_decode_ok s sc id h

/-- Witness for C6 at an invalid code and at a valid code. -/
theorem redirect_decodes_first_witness :
    Decode "!" = .error (.invalidChar '!' 0) ∧
      Redirect ⟨[], [], 0⟩ "!" = (.error ErrInvalidShortCode, ⟨[], [], 0⟩) ∧
      Decode "3d7" = .ok 12345 ∧
      Redirect ⟨[], [], 0⟩ "3d7" = GetRun ⟨[], [], 0⟩ 12345 :=
  ⟨by decide,
    (redirect_decodes_first ⟨[], [], 0⟩ "!" (.invalidChar '!' 0) 0).1 (by decide),
    by decide,
    (redirect_decodes_first ⟨[], [], 0⟩ "3d7" (.invalidChar '!' 0) 12345).2 (by decide)⟩

/-- C7: an id absent from both cache and store makes Get fail with the
NotFound sentinel, which is a distinct error from InvalidShortCode and
from every wrapped store error. -/
theorem notfound_propagation (s : RepoState) (id : Nat)
    (h1 : lookupCache s.cache (cacheKey id) = none)
    (h2 : lookupStore s.store id = none) :
    (GetRun s id).1 = .error ErrNotFound ∧
      ErrNotFound ≠ ErrInvalidShortCode ∧
      ∀ m, ErrNotFound ≠ AppError.storeError m := by
  refine ⟨?_, by decide, fun m => ?_⟩
  · rw [GetRun_miss_absent s id h1 h2]
  · rw [ErrNotFound]
    exact fun hh => AppError.noConfusion hh

/-- Witness for C7: id 9 on an empty repository. -/
theorem notfound_propagation_witness :
    lookupCache (RepoState.mk [] [] 0).cache (cacheKey 9) = none ∧
      lookupStore (RepoState.mk [] [] 0).store 9 = none ∧
      (GetRun (RepoState.mk [] [] 0) 9).1 = .error ErrNotFound :=
  ⟨by decide, by decide,
    (notfound_propagation (RepoState.mk [] [] 0) 9 (by decide) (by decide)).1⟩

/-- C8: any string containing a character outside the 62-symbol alphabet
makes Decode fail with an invalid-character error carrying the offending
character and its byte position; in particular "invalid_char!" fails on
the underscore at position 7, rendered exactly as the code formats it. -/
theorem decode_invalid_char (s : String)
    (h : ∃ c ∈ s.toList, indexInAlphabet c = none) :
    (∃ c pos, Decode s = .error (.invalidChar c pos) ∧ indexInAlphabet c = none) ∧
      Decode "invalid_char!" = .error (.invalidChar '_' 7) ∧
      decodeErrorMessage (.invalidChar '_' 7) =
        "invalid character '_' at position 7 in base62 string" := by
  refine ⟨?_, by decide, by decide⟩
  exact decodeLoop_invalid s.toList 0 0 h

/-- Witness for C8 at the spec's literal example. -/
theorem decode_invalid_char_witness :
    (∃ c ∈ "invalid_char!".toList, indexInAlphabet c = none) ∧
      ∃ c pos, Decode "invalid_char!" = .error (.invalidChar c pos) ∧
        indexInAlphabet c = none :=
  ⟨by decide, (decode_invalid_char "invalid_char!" (by decide)).1⟩

/-- C9: decoding a string of alphabet symbols never fails, even when its
exact base-62 value exceeds 2^64 - 1: the result is the value reduced
modulo 2^64, each loop step wrapping in unsigned 64-bit arithmetic. -/
theorem decode_overflow_wraps (s : String)
    (hall : ∀ c ∈ s.toList, (indexInAlphabet c).isSome)
    (_hbig : 2 ^ 64 - 1 < base62Val s) :
    Decode s = .ok (base62Val s % 2 ^ 64) := by
  rw [Decode, decodeLoop_ok s.toList 0 0 hall, modFold_eq s.toList 0 uint64Size_pos]
  rfl

/-- Witness for C9 on twelve z's, whose value exceeds 2^64 - 1. -/
theorem decode_overflow_wraps_witness :
    (∀ c ∈ ("zzzzzzzzzzzz" : String).toList, (indexInAlphabet c).isSome) ∧
      2 ^ 64 - 1 < base62Val "zzzzzzzzzzzz" ∧
      Decode "zzzzzzzzzzzz" = .ok (base62Val "zzzzzzzzzzzz" % 2 ^ 64) :=
  ⟨by decide, by decide, decode_overflow_wraps "zzzzzzzzzzzz" (by decide) (by decide)⟩

/-- C10: every encoded id below 2^64 yields a short code of between 1 and
11 characters (62^10 < 2^64 ≤ 62^11). -/
theorem encode_length_bounds (id : Nat) (h : id < 2 ^ 64) :
    1 ≤ (Encode id).length ∧ (Encode id).length ≤ 11 := by
  by_cases h0 : id = 0
  · subst h0
    decide
  have hlen : (Encode id).length = (encodeDigits id).length := by
    rw [Encode, if_neg h0]
    show (encodeDigits id).reverse.length = _
    exact List.length_reverse _
  constructor
  · rw [hlen, encodeDigits_succ id h0]
    simp
  · rw [hlen]
    refine encodeDigits_length_le id 11 (lt_of_lt_of_le h ?_)
    rw [base_eq]
    norm_num

/-- Witness for C10 at id = 3. -/
theorem encode_length_bounds_witness :
    (3 : Nat) < 2 ^ 64 ∧ 1 ≤ (Encode 3).length ∧ (Encode 3).length ≤ 11 :=
  ⟨by norm_num, encode_length_bounds 3 (by norm_num)⟩

end Shortener
